import Mathlib

/-
  Shallow embedding of the template composition engine of the `renders`
  package (src/renders.go, src/utils.go).

  Template sources are modelled as token lists (`Source`): the regex-based
  tag extraction of the Go code is represented by the `defineTag` /
  `templateTag` items, while all string-level data that the algorithm
  branches on (tag target strings, fragment names, file paths) is kept as
  real strings, with `filepath.Ext`, `strings.Contains`,
  `filepath.Join` and the slice `path[len(base)+1:]` modelled faithfully
  at character-list level.

  Go's `panic` (used by `loadTemplates` via `panic(err)` and
  `template.Must`) is modelled by the dedicated `LoadRes.panicked`
  constructor, distinct from a normal `(map, error)` return.
-/

namespace Renders

/-! ### String and path primitives (strings.Contains, filepath.Ext, Join, Rel) -/

/-- `matchesAt needle hay`: the needle occurs at the very beginning of the hay. -/
def matchesAt : List Char → List Char → Bool
  | [], _ => true
  | _ :: _, [] => false
  | n :: ns, h :: hs => n == h && matchesAt ns hs

/-- `containsChars needle hay`: the needle occurs somewhere inside the hay. -/
def containsChars (needle : List Char) : List Char → Bool
  | [] => matchesAt needle []
  | h :: hs => matchesAt needle (h :: hs) || containsChars needle hs

/-- Go `strings.Contains(s, sub)`. -/
def goContains (s sub : String) : Bool := containsChars sub.data s.data

/-- Helper for `goExt`: scans the reversed character list; `acc` holds the
characters already passed, in original order.  Mirrors the loop of Go's
`filepath.Ext`: stop with `path[i:]` at the last dot of the final path
element, stop with the empty string at a path separator or at the start. -/
def goExtRev : List Char → List Char → List Char
  | [], _ => []
  | c :: rest, acc =>
    if c = '/' then []
    else if c = '.' then c :: acc
    else goExtRev rest (c :: acc)

/-- Go `filepath.Ext`. -/
def goExt (s : String) : String := ⟨goExtRev s.data.reverse []⟩

/-- Go `filepath.Join(bp, p)` for a clean relative `p` (no `.`/`..` segments),
which is how `add` uses it. -/
def goJoin (bp p : String) : String := bp ++ "/" ++ p

/-- `generateTemplateName` from src/utils.go: `filepath.ToSlash(path[len(base)+1:])`.
Paths are modelled as slash-separated strings, on which `ToSlash` is the
identity, and the byte slice is the character drop (ASCII model). -/
def generateTemplateName (base path : String) : String :=
  ⟨path.data.drop (base.data.length + 1)⟩

/-- Go `filepath.Rel(bp, path)` for the paths produced by `filepath.Walk(bp, ·)`,
which all have the shape `bp ++ "/" ++ rel`; on those `Rel` returns `rel`. -/
def goRel (bp path : String) : String :=
  ⟨path.data.drop (bp.data.length + 1)⟩

/-- `inExtensions` from src/utils.go (the global `exts` passed explicitly). -/
def inExtensions (exts : List String) (ext : String) : Bool :=
  exts.any fun e => e == ext

/-! ### Data model -/

/-- One token of a template source: plain text, a `define` tag
(`reDefineTag` capture groups: name and optional trailing token), or a
`template` tag (`reTemplateTag` capture groups: target and optional
trailing token). -/
inductive Item where
  | text (s : String)
  | defineTag (name tok : String)
  | templateTag (target tok : String)
deriving DecidableEq

/-- A template source, as scanned by the tag regexes. -/
abbrev Source := List Item

/-- `namedTemplate` from src/renders.go. -/
structure NamedTemplate where
  Name : String
  Src : Source
deriving DecidableEq

/-- The package-level mutable state touched by `add`: the fragment `cache`
and the global `regularTemplateDefs` list. -/
structure St where
  cache : List NamedTemplate
  regularTemplateDefs : List String
deriving DecidableEq

/-- The directory tree walked by `loadTemplates`: full path ↦ content;
`none` models an unreadable file. -/
abbrev FS := List (String × Option Source)

/-- The two failure cases of `file_content` (src/utils.go): the
`ioutil.ReadFile` error and the `render: template file is empty` error. -/
inductive FileError where
  | ioError
  | emptyTemplateError
deriving DecidableEq

/-- An item that renders to the empty string (only empty plain text does:
any tag occupies at least its delimiters). -/
def itemIsEmpty : Item → Bool
  | .text s => s.isEmpty
  | _ => false

/-- A source of zero bytes (`len(s) < 1` in Go). -/
def srcIsEmpty (s : Source) : Bool := s.all itemIsEmpty

/-- First-match association lookup in the file system. -/
def lookupFS : FS → String → Option (Option Source)
  | [], _ => none
  | (p, c) :: rest, q => if p == q then some c else lookupFS rest q

/-- `file_content` from src/utils.go. -/
def file_content (fs : FS) (path : String) : Except FileError Source :=
  match lookupFS fs path with
  | none => .error .ioError
  | some none => .error .ioError
  | some (some s) => if srcIsEmpty s then .error .emptyTemplateError else .ok s

/-- The captured targets of all `template` tags of a source, in textual
order (`reTemplateTag.FindAllString(src, -1)` plus `FindStringSubmatch`). -/
def tagTargets (s : Source) : List String :=
  s.filterMap fun it =>
    match it with
    | .templateTag t _ => some t
    | _ => none

/-! ### The recursive Includer (`add`, src/renders.go lines 117-160) -/

/-- Result of one `add` call: `out` marks recursion-budget exhaustion of the
fuelled model (proved unreachable below), `res e st` is Go's
`return err` / `return nil` with the package state after the call. -/
inductive AddRes where
  | out
  | res (e : Option FileError) (st : St)
deriving DecidableEq

/-- The loop over `reTemplateTag.FindAllString(nt.Src, -1)` in `add`
(lines 146-157), parameterised by the recursive call `step`.  Faithfully
keeps both branches: the `regularTemplateDefs` append branch (which is in
fact unreachable, see `goContains_goExt`), and the recursive
`add(filepath.Join(basePath, templatePath))` whose error is discarded. -/
def tagsGo (bp : String) (step : String → St → AddRes) :
    List String → St → Option St
  | [], st => some st
  | tg :: rest, st =>
    let ext := goExt tg
    if goContains tg ext = false then
      tagsGo bp step rest ⟨st.cache, st.regularTemplateDefs ++ [tg]⟩
    else
      match step (goJoin bp tg) st with
      | .out => none
      | .res _ st2 => tagsGo bp step rest st2

/-- `add` from src/renders.go, with an explicit recursion-depth budget. -/
def addGo (fs : FS) (bp : String) : Nat → String → St → AddRes
  | 0, _, _ => .out
  | fuel + 1, path, st =>
    match file_content fs path with
    | .error e => .res (some e) st
    | .ok tplSrc =>
      let tplName := generateTemplateName bp path
      if st.cache.any fun nt => nt.Name == tplName then
        .res none st
      else
        let st1 : St := ⟨st.cache ++ [⟨tplName, tplSrc⟩], st.regularTemplateDefs⟩
        match tagsGo bp (fun q s => addGo fs bp fuel q s) (tagTargets tplSrc) st1 with
        | none => .out
        | some st2 => .res none st2

/-- A recursion budget that always suffices (theorem `addGo_no_out`). -/
def addFuel (fs : FS) : Nat := fs.length + 1

/-- `add` with the canonical sufficient budget.  The `.out` arm is
unreachable by `addGo_no_out`. -/
def addT (fs : FS) (bp path : String) (st : St) : Option FileError × St :=
  match addGo fs bp (addFuel fs) path st with
  | .out => (none, st)
  | .res e st' => (e, st')

/-! ### The Redefinition Resolver (src/renders.go lines 64-87) -/

/-- One step of `reDefineTag.ReplaceAllStringFunc`'s closure for a symbolic
name `t`: the state is the pair `(found, defineIdx)` declared per name,
shared across all cached fragments.  The first `define` for `t` is kept;
each later one is rewritten to `{{ define "<t>_invalidated_#<idx>" }}`
(note the `fmt.Sprintf` drops the optional trailing token). -/
def resolveItem (t : String) (fd : Bool × Nat) (it : Item) : (Bool × Nat) × Item :=
  match it with
  | .defineTag name _ =>
    if name ≠ t then (fd, it)
    else if fd.1 = false then ((true, fd.2), it)
    else
      let idx := fd.2 + 1
      ((true, idx), .defineTag (name ++ "_invalidated_#" ++ toString idx) "")
  | other => (fd, other)

/-- `reDefineTag.ReplaceAllStringFunc` over one fragment source. -/
def resolveSrc (t : String) : Bool × Nat → Source → (Bool × Nat) × Source
  | fd, [] => (fd, [])
  | fd, it :: rest =>
    let x := resolveItem t fd it
    let y := resolveSrc t x.1 rest
    (y.1, x.2 :: y.2)

/-- The inner `for _, nt := range cache` loop for one symbolic name `t`
(lines 69-86): `found`/`defineIdx` persist across fragments. -/
def resolveCache (t : String) : Bool × Nat → List NamedTemplate → (Bool × Nat) × List NamedTemplate
  | fd, [] => (fd, [])
  | fd, nt :: rest =>
    let x := resolveSrc t fd nt.Src
    let y := resolveCache t x.1 rest
    (y.1, ⟨nt.Name, x.2⟩ :: y.2)

/-- The outer `for _, t := range regularTemplateDefs` loop (lines 65-87). -/
def resolvePass (defs : List String) (c : List NamedTemplate) : List NamedTemplate :=
  defs.foldl (fun cc t => (resolveCache t (false, 0) cc).2) c

/-! ### Compositor and Directory Walker (src/renders.go lines 43-115) -/

/-- The output mapping `map[string]*template.Template`; a compiled unit is
the namespace of fragments registered into it, in cache order, rooted at
the first fragment's name. -/
abbrev TplMap := List (String × List NamedTemplate)

/-- Go map insertion `templates[tname] = baseTmpl`. -/
def upsert (m : TplMap) (k : String) (v : List NamedTemplate) : TplMap :=
  if m.any fun kv => kv.1 == k then
    m.map fun kv => if kv.1 == k then (k, v) else kv
  else m ++ [(k, v)]

/-- The two `panic` sites of `loadTemplates`: `panic(err)` after a failed
`add` (line 61), and `template.Must` on a fragment that fails to parse
(line 103). -/
inductive PanicReason where
  | addFail (e : FileError)
  | mustFail
deriving DecidableEq

/-- Result of `loadTemplates`: either a normal return of the mapping (with
a nil error — the walk function never returns a non-nil error in the
modelled path shapes), or a panic that propagates past the caller. -/
inductive LoadRes where
  | panicked (r : PanicReason)
  | returned (m : TplMap)
deriving DecidableEq

/-- Result of the walk-function body for one walked file. -/
inductive StepRes where
  | next (st : St) (m : TplMap)
  | halted (r : PanicReason) (st : St)
deriving DecidableEq

/-- The body of the `filepath.Walk` closure (lines 49-112) for one walked
file `path`, parameterised by the parse oracle `pk` standing for
`html/template`'s `Parse` (with the configured `FuncMap`) succeeding on a
fragment source. -/
def stepFile (pk : Source → Bool) (fs : FS) (bp : String) (exts : List String)
    (path : String) (st : St) (m : TplMap) : StepRes :=
  let r := goRel bp path
  let ext := goExt r
  if inExtensions exts ext = false then .next st m
  else
    match addT fs bp path st with
    | (some e, st') => .halted (.addFail e) st'
    | (none, st') =>
      let rc := resolvePass st'.regularTemplateDefs st'.cache
      if rc.all fun nt => pk nt.Src then
        .next ⟨[], st'.regularTemplateDefs⟩ (upsert m (generateTemplateName bp path) rc)
      else .halted .mustFail ⟨rc, st'.regularTemplateDefs⟩

/-- `filepath.Walk` over the file list, driving `stepFile`; a `halted`
step aborts the whole walk as a panic, discarding the accumulated map. -/
def walkGo (pk : Source → Bool) (fs : FS) (bp : String) (exts : List String) :
    List (String × Option Source) → St → TplMap → LoadRes × St
  | [], st, m => (.returned m, st)
  | (p, _) :: rest, st, m =>
    match stepFile pk fs bp exts p st m with
    | .next st' m' => walkGo pk fs bp exts rest st' m'
    | .halted r st' => (.panicked r, st')

/-- `loadTemplates` from src/renders.go: walk the whole tree starting from
a fresh `templates` map. -/
def loadTemplatesGo (pk : Source → Bool) (fs : FS) (bp : String)
    (exts : List String) (st : St) : LoadRes × St :=
  walkGo pk fs bp exts fs st []

/-! ### Derived notions used by the statements -/

/-- The names of the cached fragments, in cache order. -/
def namesOf (c : List NamedTemplate) : List String := c.map fun nt => nt.Name

/-- `loads fs p`: `file_content` succeeds on `p` (file readable and non-empty). -/
def loads (fs : FS) (p : String) : Prop := ∃ s, file_content fs p = .ok s

/-- The canonical names of all loadable files of the tree. -/
def okNames (fs : FS) (bp : String) : List String :=
  fs.filterMap fun pc =>
    match pc.2 with
    | some s => if srcIsEmpty s then none else some (generateTemplateName bp pc.1)
    | none => none

/-- Number of loadable file names not yet cached: the decreasing measure
of the recursion of `add`. -/
def missingN (fs : FS) (bp : String) (st : St) : Nat :=
  ((okNames fs bp).filter fun n => ¬ n ∈ namesOf st.cache).toFinset.card

/-- All loadable files referenced by `template` tags of a cached fragment
already appear in the cache (by name). -/
def childOk (fs : FS) (bp : String) (c : List NamedTemplate) (nt : NamedTemplate) : Prop :=
  ∀ tg ∈ tagTargets nt.Src, loads fs (goJoin bp tg) →
    generateTemplateName bp (goJoin bp tg) ∈ namesOf c

/-- Every cached fragment holds exactly the content of the file its name
points back to. -/
def cacheFaithful (fs : FS) (bp : String) (c : List NamedTemplate) : Prop :=
  ∀ nt ∈ c, file_content fs (goJoin bp nt.Name) = .ok nt.Src

/-- Transitive reachability through `template` tags, starting from an
entry file, restricted to loadable files: `Reach fs bp p q` means the
file `q` is reached from the entry `p` by following tag targets. -/
inductive Reach (fs : FS) (bp : String) : String → String → Prop
  | refl (p : String) (h : loads fs p) : Reach fs bp p p
  | step (p q tg : String) (s : Source) (hq : Reach fs bp p q)
      (hs : file_content fs q = .ok s) (htg : tg ∈ tagTargets s)
      (hl : loads fs (goJoin bp tg)) : Reach fs bp p (goJoin bp tg)

/-! ### Basic lemmas on the string primitives -/

theorem matchesAt_refl : ∀ l : List Char, matchesAt l l = true := by
  intro l
  induction l with
  | nil => rfl
  | cons c cs ih => simp [matchesAt, ih]

theorem containsChars_nil : ∀ hay : List Char, containsChars [] hay = true := by
  intro hay
  cases hay with
  | nil => rfl
  | cons h hs => simp [containsChars, matchesAt]

theorem containsChars_of_suffix :
    ∀ (pre needle : List Char), containsChars needle (pre ++ needle) = true := by
  intro pre
  induction pre with
  | nil =>
    intro needle
    cases needle with
    | nil => rfl
    | cons n ns => simp [containsChars, matchesAt_refl]
  | cons p ps ih =>
    intro needle
    simp [containsChars, ih needle]

theorem goExtRev_spec :
    ∀ (l acc : List Char), goExtRev l acc = [] ∨
      ∃ pre, l.reverse ++ acc = pre ++ goExtRev l acc := by
  intro l
  induction l with
  | nil => intro acc; exact Or.inl rfl
  | cons c rest ih =>
    intro acc
    by_cases hsep : c = '/'
    · exact Or.inl (by simp [goExtRev, hsep])
    · by_cases hdot : c = '.'
      · refine Or.inr ⟨rest.reverse, ?_⟩
        simp [goExtRev, hsep, hdot]
      · have := ih (c :: acc)
        have harr : (c :: rest).reverse ++ acc = rest.reverse ++ (c :: acc) := by simp
        rw [goExtRev]
        simp only [if_neg hsep, if_neg hdot]
        rcases this with h | ⟨pre, hpre⟩
        · exact Or.inl h
        · exact Or.inr ⟨pre, by rw [harr, hpre]⟩

/-- The heart of the `add` dispatch bug: `filepath.Ext(t)` is always a
literal substring (in fact suffix) of `t`, and `strings.Contains(t, "")`
is `true`, so `strings.Contains(t, filepath.Ext(t))` always holds and the
branch appending to `regularTemplateDefs` is unreachable. -/
theorem goContains_goExt (t : String) : goContains t (goExt t) = true := by
  unfold goContains goExt
  have hspec := goExtRev_spec t.data.reverse []
  set r := goExtRev t.data.reverse [] with hr
  rcases hspec with h | ⟨pre, hpre⟩
  · rw [h]; exact containsChars_nil _
  · simp only [List.reverse_reverse, List.append_nil] at hpre
    show containsChars r t.data = true
    rw [hpre]
    exact containsChars_of_suffix _ _

/-- Canonical names invert joining: `generateTemplateName bp (Join bp x) = x`. -/
theorem gen_goJoin (bp x : String) : generateTemplateName bp (goJoin bp x) = x := by
  unfold generateTemplateName goJoin
  have hdata : (bp ++ "/" ++ x).data = (bp.data ++ ['/']) ++ x.data := by
    simp [String.data_append]
  rw [hdata]
  have hlen : bp.data.length + 1 = (bp.data ++ ['/']).length := by simp
  rw [hlen, List.drop_left]

/-- Since the `regularTemplateDefs` branch of the tag loop is dead, the
loop always recurses into `add`. -/
theorem tagsGo_cons (bp : String) (step : String → St → AddRes)
    (tg : String) (rest : List String) (st : St) :
    tagsGo bp step (tg :: rest) st =
      match step (goJoin bp tg) st with
      | .out => none
      | .res _ st2 => tagsGo bp step rest st2 := by
  simp [tagsGo, goContains_goExt]

/-! ### Invariants of the recursive Includer -/

theorem mem_namesOf_of_any (c : List NamedTemplate) (n : String)
    (h : (c.any fun nt => nt.Name == n) = true) : n ∈ namesOf c := by
  rcases List.any_eq_true.mp h with ⟨nt, hnt, hb⟩
  exact List.mem_map.mpr ⟨nt, hnt, beq_iff_eq.mp hb⟩

theorem not_mem_namesOf_of_any (c : List NamedTemplate) (n : String)
    (h : (c.any fun nt => nt.Name == n) = false) : ¬ n ∈ namesOf c := by
  intro hmem
  rcases List.mem_map.mp hmem with ⟨nt, hnt, hn⟩
  have := List.any_eq_false.mp h nt hnt
  exact this (beq_iff_eq.mpr hn)

theorem any_of_mem_namesOf (c : List NamedTemplate) (n : String)
    (h : n ∈ namesOf c) : (c.any fun nt => nt.Name == n) = true := by
  rcases List.mem_map.mp h with ⟨nt, hnt, hn⟩
  exact List.any_eq_true.mpr ⟨nt, hnt, beq_iff_eq.mpr hn⟩

/-- Case analysis for one unfolding of `add`: failed load, already-cached
no-op, full processing, or exhausted recursion budget. -/
theorem addGo_succ_inv (fs : FS) (bp : String) (fuel : Nat) (p : String) (st : St) :
    (∃ e, file_content fs p = .error e ∧
      addGo fs bp (fuel + 1) p st = .res (some e) st) ∨
    (∃ tplSrc, file_content fs p = .ok tplSrc ∧
      (st.cache.any fun nt => nt.Name == generateTemplateName bp p) = true ∧
      addGo fs bp (fuel + 1) p st = .res none st) ∨
    (∃ tplSrc st2, file_content fs p = .ok tplSrc ∧
      (st.cache.any fun nt => nt.Name == generateTemplateName bp p) = false ∧
      tagsGo bp (fun q s => addGo fs bp fuel q s) (tagTargets tplSrc)
        ⟨st.cache ++ [⟨generateTemplateName bp p, tplSrc⟩], st.regularTemplateDefs⟩ = some st2 ∧
      addGo fs bp (fuel + 1) p st = .res none st2) ∨
    (∃ tplSrc, file_content fs p = .ok tplSrc ∧
      (st.cache.any fun nt => nt.Name == generateTemplateName bp p) = false ∧
      tagsGo bp (fun q s => addGo fs bp fuel q s) (tagTargets tplSrc)
        ⟨st.cache ++ [⟨generateTemplateName bp p, tplSrc⟩], st.regularTemplateDefs⟩ = none ∧
      addGo fs bp (fuel + 1) p st = .out) := by
  cases hfc : file_content fs p with
  | error e => exact Or.inl ⟨e, rfl, by rw [addGo, hfc]⟩
  | ok tplSrc =>
    by_cases hinc : (st.cache.any fun nt => nt.Name == generateTemplateName bp p) = true
    · exact Or.inr (Or.inl ⟨tplSrc, rfl, hinc, by rw [addGo, hfc]; simp [hinc]⟩)
    · have hinc' : (st.cache.any fun nt => nt.Name == generateTemplateName bp p) = false :=
        Bool.eq_false_iff.mpr hinc
      cases htg : tagsGo bp (fun q s => addGo fs bp fuel q s) (tagTargets tplSrc)
          ⟨st.cache ++ [⟨generateTemplateName bp p, tplSrc⟩], st.regularTemplateDefs⟩ with
      | none =>
        refine Or.inr (Or.inr (Or.inr ⟨tplSrc, rfl, hinc', htg, ?_⟩))
        rw [addGo, hfc]
        simp [hinc', htg]
      | some st2 =>
        refine Or.inr (Or.inr (Or.inl ⟨tplSrc, st2, rfl, hinc', htg, ?_⟩))
        rw [addGo, hfc]
        simp [hinc', htg]

theorem tagsGo_cacheExt (bp : String) (step : String → St → AddRes)
    (hstep : ∀ q s e s', step q s = .res e s' → ∃ l, s'.cache = s.cache ++ l) :
    ∀ (ts : List String) (st st' : St), tagsGo bp step ts st = some st' →
      ∃ l, st'.cache = st.cache ++ l := by
  intro ts
  induction ts with
  | nil =>
    intro st st' h
    cases h
    exact ⟨[], by simp⟩
  | cons tg rest ih =>
    intro st st' h
    rw [tagsGo_cons] at h
    cases hs : step (goJoin bp tg) st with
    | out => rw [hs] at h; cases h
    | res e st2 =>
      rw [hs] at h
      obtain ⟨l1, h1⟩ := hstep _ _ _ _ hs
      obtain ⟨l2, h2⟩ := ih st2 st' h
      exact ⟨l1 ++ l2, by rw [h2, h1, List.append_assoc]⟩

theorem addGo_cacheExt (fs : FS) (bp : String) :
    ∀ (fuel : Nat) (p : String) (st : St) (e : Option FileError) (st' : St),
      addGo fs bp fuel p st = .res e st' → ∃ l, st'.cache = st.cache ++ l := by
  intro fuel
  induction fuel with
  | zero => intro p st e st' h; cases h
  | succ fuel ih =>
    intro p st e st' h
    rcases addGo_succ_inv fs bp fuel p st with
        ⟨e0, _, heq⟩ | ⟨src, _, _, heq⟩ | ⟨src, st2, _, _, htg, heq⟩ | ⟨src, _, _, _, heq⟩ <;>
      rw [h] at heq
    · cases heq; exact ⟨[], by simp⟩
    · cases heq; exact ⟨[], by simp⟩
    · cases heq
      obtain ⟨l, hl⟩ := tagsGo_cacheExt bp _ (fun q s e s' => ih q s e s') _ _ _ htg
      exact ⟨⟨generateTemplateName bp p, src⟩ :: l, by rw [hl]; simp⟩
    · cases heq

theorem tagsGo_defs (bp : String) (step : String → St → AddRes)
    (hstep : ∀ q s e s', step q s = .res e s' →
      s'.regularTemplateDefs = s.regularTemplateDefs) :
    ∀ (ts : List String) (st st' : St), tagsGo bp step ts st = some st' →
      st'.regularTemplateDefs = st.regularTemplateDefs := by
  intro ts
  induction ts with
  | nil => intro st st' h; cases h; rfl
  | cons tg rest ih =>
    intro st st' h
    rw [tagsGo_cons] at h
    cases hs : step (goJoin bp tg) st with
    | out => rw [hs] at h; cases h
    | res e st2 =>
      rw [hs] at h
      rw [ih st2 st' h, hstep _ _ _ _ hs]

/-- The symbolic reference list is never touched by `add`: its only append
site sits in the dead branch (`goContains_goExt`). -/
theorem addGo_defs (fs : FS) (bp : String) :
    ∀ (fuel : Nat) (p : String) (st : St) (e : Option FileError) (st' : St),
      addGo fs bp fuel p st = .res e st' →
      st'.regularTemplateDefs = st.regularTemplateDefs := by
  intro fuel
  induction fuel with
  | zero => intro p st e st' h; cases h
  | succ fuel ih =>
    intro p st e st' h
    rcases addGo_succ_inv fs bp fuel p st with
        ⟨e0, _, heq⟩ | ⟨src, _, _, heq⟩ | ⟨src, st2, _, _, htg, heq⟩ | ⟨src, _, _, _, heq⟩ <;>
      rw [h] at heq
    · cases heq; rfl
    · cases heq; rfl
    · cases heq
      exact tagsGo_defs bp (fun q s => addGo fs bp fuel q s)
        (fun q s e s' => ih q s e s') (tagTargets src)
        ⟨st.cache ++ [⟨generateTemplateName bp p, src⟩], st.regularTemplateDefs⟩ st' htg
    · cases heq

/-- `add` returns a non-nil error exactly on a failed `file_content` of
its own argument, before mutating any state. -/
theorem addGo_err (fs : FS) (bp : String) (fuel : Nat) (p : String) (st : St)
    (e : FileError) (st' : St) (h : addGo fs bp fuel p st = .res (some e) st') :
    file_content fs p = .error e ∧ st' = st := by
  cases fuel with
  | zero => cases h
  | succ fuel =>
    rcases addGo_succ_inv fs bp fuel p st with
        ⟨e0, hfc, heq⟩ | ⟨src, _, _, heq⟩ | ⟨src, st2, _, _, _, heq⟩ | ⟨src, _, _, _, heq⟩ <;>
      rw [h] at heq
    · cases heq; exact ⟨hfc, rfl⟩
    · cases heq
    · cases heq
    · cases heq

/-- After a successful `add`, the argument's canonical name is cached. -/
theorem addGo_memOk (fs : FS) (bp : String) (fuel : Nat) (p : String) (st st' : St)
    (h : addGo fs bp fuel p st = .res none st') :
    generateTemplateName bp p ∈ namesOf st'.cache := by
  cases fuel with
  | zero => cases h
  | succ fuel =>
    rcases addGo_succ_inv fs bp fuel p st with
        ⟨e0, _, heq⟩ | ⟨src, _, hinc, heq⟩ | ⟨src, st2, _, _, htg, heq⟩ | ⟨src, _, _, _, heq⟩ <;>
      rw [h] at heq
    · cases heq
    · cases heq; exact mem_namesOf_of_any _ _ hinc
    · cases heq
      obtain ⟨l, hl⟩ := tagsGo_cacheExt bp _
        (fun q s e s' => addGo_cacheExt fs bp fuel q s e s') _ _ _ htg
      rw [namesOf, hl]
      simp [namesOf]
    · cases heq

theorem tagsGo_nodup (bp : String) (step : String → St → AddRes)
    (hstep : ∀ q s e s', step q s = .res e s' →
      (namesOf s.cache).Nodup → (namesOf s'.cache).Nodup) :
    ∀ (ts : List String) (st st' : St), tagsGo bp step ts st = some st' →
      (namesOf st.cache).Nodup → (namesOf st'.cache).Nodup := by
  intro ts
  induction ts with
  | nil => intro st st' h hn; cases h; exact hn
  | cons tg rest ih =>
    intro st st' h hn
    rw [tagsGo_cons] at h
    cases hs : step (goJoin bp tg) st with
    | out => rw [hs] at h; cases h
    | res e st2 =>
      rw [hs] at h
      exact ih st2 st' h (hstep _ _ _ _ hs hn)

/-- Every `add` step preserves name-uniqueness of the cache: the only
append is guarded by the already-included check. -/
theorem addGo_nodup (fs : FS) (bp : String) :
    ∀ (fuel : Nat) (p : String) (st : St) (e : Option FileError) (st' : St),
      addGo fs bp fuel p st = .res e st' →
      (namesOf st.cache).Nodup → (namesOf st'.cache).Nodup := by
  intro fuel
  induction fuel with
  | zero => intro p st e st' h; cases h
  | succ fuel ih =>
    intro p st e st' h hn
    rcases addGo_succ_inv fs bp fuel p st with
        ⟨e0, _, heq⟩ | ⟨src, _, _, heq⟩ | ⟨src, st2, _, hinc, htg, heq⟩ | ⟨src, _, _, _, heq⟩ <;>
      rw [h] at heq
    · cases heq; exact hn
    · cases heq; exact hn
    · cases heq
      refine tagsGo_nodup bp (fun q s => addGo fs bp fuel q s)
        (fun q s e s' => ih q s e s') (tagTargets src)
        ⟨st.cache ++ [⟨generateTemplateName bp p, src⟩], st.regularTemplateDefs⟩ st' htg ?_
      have hnm := not_mem_namesOf_of_any _ _ hinc
      simp only [namesOf, List.map_append, List.map_cons, List.map_nil] at *
      simp [List.nodup_append, hn, hnm]
    · cases heq

/-! ### Termination of the Includer -/

theorem lookupFS_mem (fs : FS) (p : String) (c : Option Source)
    (h : lookupFS fs p = some c) : (p, c) ∈ fs := by
  induction fs with
  | nil => cases h
  | cons qc rest ih =>
    obtain ⟨q, c0⟩ := qc
    rw [lookupFS] at h
    by_cases hq : (q == p) = true
    · rw [if_pos hq] at h
      cases h
      have : q = p := beq_iff_eq.mp hq
      subst this
      exact List.mem_cons_self _ _
    · rw [if_neg hq] at h
      exact List.mem_cons_of_mem _ (ih h)

theorem file_content_ok_inv (fs : FS) (p : String) (s : Source)
    (h : file_content fs p = .ok s) :
    lookupFS fs p = some (some s) ∧ srcIsEmpty s = false := by
  rw [file_content] at h
  cases hl : lookupFS fs p with
  | none => rw [hl] at h; cases h
  | some c =>
    cases c with
    | none => rw [hl] at h; cases h
    | some s0 =>
      rw [hl] at h
      by_cases he : srcIsEmpty s0 = true
      · simp [he] at h
      · simp [he] at h
        cases h
        exact ⟨rfl, Bool.eq_false_iff.mpr he⟩

theorem okNames_of_loads (fs : FS) (bp : String) (p : String) (s : Source)
    (h : file_content fs p = .ok s) :
    generateTemplateName bp p ∈ okNames fs bp := by
  obtain ⟨hl, he⟩ := file_content_ok_inv fs p s h
  refine List.mem_filterMap.mpr ⟨(p, some s), lookupFS_mem fs p (some s) hl, ?_⟩
  simp [he]

theorem missingN_mono (fs : FS) (bp : String) (st st' : St)
    (h : ∀ n, n ∈ namesOf st.cache → n ∈ namesOf st'.cache) :
    missingN fs bp st' ≤ missingN fs bp st := by
  apply Finset.card_le_card
  intro n hn
  simp only [missingN, List.mem_toFinset, List.mem_filter] at *
  obtain ⟨h1, h2⟩ := hn
  refine ⟨h1, ?_⟩
  rw [decide_eq_true_eq] at *
  exact fun hc => h2 (h n hc)

theorem missingN_lt (fs : FS) (bp : String) (st : St) (p : String) (s : Source)
    (hok : file_content fs p = .ok s)
    (hnm : ¬ generateTemplateName bp p ∈ namesOf st.cache) (d : List String) :
    missingN fs bp ⟨st.cache ++ [⟨generateTemplateName bp p, s⟩], d⟩ <
      missingN fs bp st := by
  apply Finset.card_lt_card
  constructor
  · intro n hn
    simp only [List.mem_toFinset, List.mem_filter, decide_eq_true_eq] at *
    obtain ⟨h1, h2⟩ := hn
    refine ⟨h1, fun hc => h2 ?_⟩
    simp only [namesOf, List.map_append, List.map_cons, List.map_nil] at *
    exact List.mem_append.mpr (Or.inl hc)
  · intro hsub
    have hmem := hsub (a := generateTemplateName bp p)
    simp only [List.mem_toFinset, List.mem_filter, decide_eq_true_eq] at hmem
    have := hmem ⟨okNames_of_loads fs bp p s hok, hnm⟩
    simp [namesOf] at this

theorem missingN_le (fs : FS) (bp : String) (st : St) :
    missingN fs bp st ≤ fs.length := by
  calc missingN fs bp st
      ≤ ((okNames fs bp).filter fun n => ¬ n ∈ namesOf st.cache).length :=
        List.toFinset_card_le _
    _ ≤ (okNames fs bp).length := List.length_filter_le _ _
    _ ≤ fs.length := List.length_filterMap_le _ _

theorem tagsGo_total (fs : FS) (bp : String) (step : String → St → AddRes) (f : Nat)
    (hnoout : ∀ q s, missingN fs bp s < f → step q s ≠ .out)
    (hext : ∀ q s e s', step q s = .res e s' → ∃ l, s'.cache = s.cache ++ l) :
    ∀ (ts : List String) (st : St), missingN fs bp st < f →
      tagsGo bp step ts st ≠ none := by
  intro ts
  induction ts with
  | nil => intro st _ h; cases h
  | cons tg rest ih =>
    intro st hm h
    rw [tagsGo_cons] at h
    cases hs : step (goJoin bp tg) st with
    | out => exact hnoout _ _ hm hs
    | res e st2 =>
      rw [hs] at h
      obtain ⟨l, hl⟩ := hext _ _ _ _ hs
      have hsub : ∀ n, n ∈ namesOf st.cache → n ∈ namesOf st2.cache := by
        intro n hn
        simp only [namesOf, hl, List.map_append]
        exact List.mem_append.mpr (Or.inl hn)
      exact ih st2 (lt_of_le_of_lt (missingN_mono fs bp st st2 hsub) hm) h

theorem addGo_no_out_aux (fs : FS) (bp : String) :
    ∀ (fuel : Nat) (p : String) (st : St), missingN fs bp st < fuel →
      addGo fs bp fuel p st ≠ .out := by
  intro fuel
  induction fuel with
  | zero => intro p st hm; cases hm
  | succ fuel ih =>
    intro p st hm h
    rcases addGo_succ_inv fs bp fuel p st with
        ⟨e0, _, heq⟩ | ⟨src, _, _, heq⟩ | ⟨src, st2, _, _, _, heq⟩ |
        ⟨src, hfc, hinc, htg, heq⟩ <;> rw [h] at heq
    · cases heq
    · cases heq
    · cases heq
    · have hnm := not_mem_namesOf_of_any _ _ hinc
      have hlt := missingN_lt fs bp st p src hfc hnm st.regularTemplateDefs
      have hfuel : missingN fs bp
          ⟨st.cache ++ [⟨generateTemplateName bp p, src⟩], st.regularTemplateDefs⟩ < fuel :=
        lt_of_lt_of_le hlt (Nat.lt_succ_iff.mp hm)
      exact tagsGo_total fs bp (fun q s => addGo fs bp fuel q s) fuel
        (fun q s hq => ih q s hq) (fun q s e s' => addGo_cacheExt fs bp fuel q s e s')
        (tagTargets src) _ hfuel htg

/-- With budget `|fs| + 1` the recursion of `add` never bottoms out:
the cycle/duplicate check bounds the recursion depth by the number of
loadable files. -/
theorem addGo_no_out (fs : FS) (bp : String) (p : String) (st : St) :
    addGo fs bp (addFuel fs) p st ≠ .out :=
  addGo_no_out_aux fs bp (addFuel fs) p st
    (lt_of_le_of_lt (missingN_le fs bp st) (Nat.lt_succ_self _))

/-- `addT` computes exactly the `add` result. -/
theorem addGo_addT (fs : FS) (bp : String) (p : String) (st : St) :
    addGo fs bp (addFuel fs) p st =
      .res (addT fs bp p st).1 (addT fs bp p st).2 := by
  rw [addT]
  cases h : addGo fs bp (addFuel fs) p st with
  | out => exact absurd h (addGo_no_out fs bp p st)
  | res e st' => rfl

theorem childOk_mono (fs : FS) (bp : String) (c c' : List NamedTemplate)
    (hsub : ∀ n, n ∈ namesOf c → n ∈ namesOf c') (nt : NamedTemplate)
    (h : childOk fs bp c nt) : childOk fs bp c' nt :=
  fun tg htg hl => hsub _ (h tg htg hl)

theorem namesOf_append_sub (c : List NamedTemplate) (l : List NamedTemplate) :
    ∀ n, n ∈ namesOf c → n ∈ namesOf (c ++ l) := by
  intro n hn
  simp only [namesOf, List.map_append]
  exact List.mem_append.mpr (Or.inl hn)

/-- Processing the tag list: every fragment added by the recursive calls
satisfies `childOk` in the final state, and every loadable tag target of
the list ends up cached. -/
theorem tagsGo_child (fs : FS) (bp : String) (step : String → St → AddRes)
    (hext : ∀ q s e s', step q s = .res e s' → ∃ l, s'.cache = s.cache ++ l)
    (herr : ∀ q s e s', step q s = .res (some e) s' → s' = s ∧ ¬ loads fs q)
    (hmem : ∀ q s s', step q s = .res none s' →
      generateTemplateName bp q ∈ namesOf s'.cache)
    (hchild : ∀ q s e s' nt, step q s = .res e s' → nt ∈ s'.cache →
      ¬ nt ∈ s.cache → childOk fs bp s'.cache nt) :
    ∀ (ts : List String) (st st' : St), tagsGo bp step ts st = some st' →
      (∀ nt, nt ∈ st'.cache → ¬ nt ∈ st.cache → childOk fs bp st'.cache nt) ∧
      (∀ tg ∈ ts, loads fs (goJoin bp tg) →
        generateTemplateName bp (goJoin bp tg) ∈ namesOf st'.cache) := by
  intro ts
  induction ts with
  | nil =>
    intro st st' h
    cases h
    exact ⟨fun nt hmem1 hmem2 => absurd hmem1 hmem2, fun tg htg => absurd htg (by simp)⟩
  | cons tg rest ih =>
    intro st st' h
    rw [tagsGo_cons] at h
    cases hs : step (goJoin bp tg) st with
    | out => rw [hs] at h; cases h
    | res e st2 =>
      rw [hs] at h
      obtain ⟨ihA, ihB⟩ := ih st2 st' h
      obtain ⟨l2, hl2⟩ := tagsGo_cacheExt bp step hext rest st2 st' h
      have hsub2 : ∀ n, n ∈ namesOf st2.cache → n ∈ namesOf st'.cache := by
        rw [hl2]; exact namesOf_append_sub _ _
      obtain ⟨l1, hl1⟩ := hext _ _ _ _ hs
      constructor
      · intro nt hnt hnts
        by_cases h2 : nt ∈ st2.cache
        · exact childOk_mono fs bp st2.cache st'.cache hsub2 nt
            (hchild _ _ _ _ nt hs h2 hnts)
        · exact ihA nt hnt h2
      · intro tg' htg' hload
        rcases List.mem_cons.mp htg' with rfl | hmem'
        · cases e with
          | some e0 => exact absurd hload (herr _ _ _ _ hs).2
          | none => exact hsub2 _ (hmem _ _ _ hs)
        · exact ihB tg' hmem' hload

theorem addGo_child (fs : FS) (bp : String) :
    ∀ (fuel : Nat) (p : String) (st : St) (e : Option FileError) (st' : St),
      addGo fs bp fuel p st = .res e st' →
      ∀ nt, nt ∈ st'.cache → ¬ nt ∈ st.cache → childOk fs bp st'.cache nt := by
  intro fuel
  induction fuel with
  | zero => intro p st e st' h; cases h
  | succ fuel ih =>
    intro p st e st' h
    have herr : ∀ q s e0 s', addGo fs bp fuel q s = .res (some e0) s' →
        s' = s ∧ ¬ loads fs q := by
      intro q s e0 s' hq
      obtain ⟨hfc, hst⟩ := addGo_err fs bp fuel q s e0 s' hq
      exact ⟨hst, fun ⟨s1, hs1⟩ => by rw [hfc] at hs1; cases hs1⟩
    rcases addGo_succ_inv fs bp fuel p st with
        ⟨e0, _, heq⟩ | ⟨src, _, _, heq⟩ | ⟨src, st2, hfc, hinc, htg, heq⟩ |
        ⟨src, _, _, _, heq⟩ <;> rw [h] at heq
    · cases heq
      intro nt h1 h2
      exact absurd h1 h2
    · cases heq
      intro nt h1 h2
      exact absurd h1 h2
    · cases heq
      obtain ⟨tA, tB⟩ := tagsGo_child fs bp (fun q s => addGo fs bp fuel q s)
        (fun q s e s' => addGo_cacheExt fs bp fuel q s e s')
        herr
        (fun q s s' => addGo_memOk fs bp fuel q s s')
        (fun q s e s' nt h1 => ih q s e s' h1 nt)
        (tagTargets src)
        ⟨st.cache ++ [⟨generateTemplateName bp p, src⟩], st.regularTemplateDefs⟩ st' htg
      intro nt hnt hnts
      by_cases h1 : nt ∈ st.cache ++ [NamedTemplate.mk (generateTemplateName bp p) src]
      · have : nt = ⟨generateTemplateName bp p, src⟩ := by
          rcases List.mem_append.mp h1 with hin | hin
          · exact absurd hin hnts
          · simpa using hin
        subst this
        intro tg htg' hload
        exact tB tg htg' hload
      · exact tA nt hnt h1
    · cases heq

theorem tagsGo_faith (fs : FS) (bp : String) (step : String → St → AddRes)
    (hfaith : ∀ q s e s', step (goJoin bp q) s = .res e s' →
      cacheFaithful fs bp s.cache → cacheFaithful fs bp s'.cache) :
    ∀ (ts : List String) (st st' : St), tagsGo bp step ts st = some st' →
      cacheFaithful fs bp st.cache → cacheFaithful fs bp st'.cache := by
  intro ts
  induction ts with
  | nil => intro st st' h hf; cases h; exact hf
  | cons tg rest ih =>
    intro st st' h hf
    rw [tagsGo_cons] at h
    cases hs : step (goJoin bp tg) st with
    | out => rw [hs] at h; cases h
    | res e st2 =>
      rw [hs] at h
      exact ih st2 st' h (hfaith _ _ _ _ hs hf)

/-- Every fragment ever cached by `add` (when called on a joined path,
which is the only way `loadTemplates` and the tag loop call it) holds the
content of the file its name resolves back to. -/
theorem addGo_faith (fs : FS) (bp : String) :
    ∀ (fuel : Nat) (x : String) (st : St) (e : Option FileError) (st' : St),
      addGo fs bp fuel (goJoin bp x) st = .res e st' →
      cacheFaithful fs bp st.cache → cacheFaithful fs bp st'.cache := by
  intro fuel
  induction fuel with
  | zero => intro x st e st' h; cases h
  | succ fuel ih =>
    intro x st e st' h hf
    rcases addGo_succ_inv fs bp fuel (goJoin bp x) st with
        ⟨e0, _, heq⟩ | ⟨src, _, _, heq⟩ | ⟨src, st2, hfc, hinc, htg, heq⟩ |
        ⟨src, _, _, _, heq⟩ <;> rw [h] at heq
    · cases heq; exact hf
    · cases heq; exact hf
    · cases heq
      refine tagsGo_faith fs bp (fun q s => addGo fs bp fuel q s)
        (fun q s e s' => ih q s e s') (tagTargets src)
        ⟨st.cache ++ [⟨generateTemplateName bp (goJoin bp x), src⟩],
          st.regularTemplateDefs⟩ st' htg ?_
      intro nt hnt
      rcases List.mem_append.mp hnt with hin | hin
      · exact hf nt hin
      · have : nt = ⟨generateTemplateName bp (goJoin bp x), src⟩ := by simpa using hin
        subst this
        show file_content fs (goJoin bp (generateTemplateName bp (goJoin bp x))) = .ok src
        rw [gen_goJoin]
        exact hfc
    · cases heq

/-! ### Concrete scenarios -/

/-- Root directory with one file whose only `template` tag has an
extension-less (symbolic) target. -/
def fsC1 : FS := [("tpl/index.html", some [.text "A", .templateTag "title" ""])]

/-- Three files: the entry references two file-backed fragments that both
define the symbolic name `X`, and references `X` itself. -/
def fsC2 : FS :=
  [("tpl/index.html",
      some [.templateTag "p.html" "", .templateTag "q.html" "", .templateTag "X" ""]),
   ("tpl/p.html", some [.defineTag "X" "", .text "P"]),
   ("tpl/q.html", some [.defineTag "X" "", .text "Q"])]

/-- One file referencing a file-backed fragment that does not exist. -/
def fsC3 : FS := [("tpl/index.html", some [.templateTag "missing.html" ""])]

/-- An unreadable top-level file. -/
def fsC4 : FS := [("tpl/broken.html", none)]

/-- One file referencing a zero-byte fragment file (whose extension is not
walked as top-level). -/
def fsC5 : FS :=
  [("tpl/index.html", some [.templateTag "empty.tmpl" ""]),
   ("tpl/empty.tmpl", some [])]

/-- A top-level file whose source the parse oracle rejects. -/
def fsC6 : FS := [("tpl/index.html", some [.text "oops"])]

/-- Parse oracle rejecting exactly the source of `fsC6`'s file. -/
def pkC6 : Source → Bool := fun s => !(s == [Item.text "oops"])

/-- Two files forming a `template`-tag cycle A→B→A. -/
def fsC7 : FS :=
  [("t/a.html", some [.templateTag "b.html" ""]),
   ("t/b.html", some [.templateTag "a.html" ""])]

/-! ### Claims -/

/-- Claim C1 (code_bug evidence).  The claim says: a `template` tag target
without a file extension is appended to the global symbolic reference
list and is not treated as a file path.  The code does the opposite: for
an extension-less target `filepath.Ext` returns `""`, and
`strings.Contains(target, "")` is `true` (first conjunct: the guard
`!strings.Contains(templatePath, ext)` can never hold, for any target),
so the target is treated as a file path via `add(filepath.Join(basePath,
target))` (whose error is discarded) and the symbolic reference list
stays empty.  Second conjunct: on the concrete input `fsC1`, scanning the
cached entry fragment whose only tag target is the symbolic name
`"title"` leaves `regularTemplateDefs` empty — the claim requires it to
become `["title"]`. -/
theorem claim_C1 :
    (∀ t : String, goContains t (goExt t) = true) ∧
    addT fsC1 "tpl" "tpl/index.html" ⟨[], []⟩ =
      (none, ⟨[⟨"index.html", [.text "A", .templateTag "title" ""]⟩], []⟩) :=
  ⟨goContains_goExt, by decide⟩

/-- Claim C2 (code_bug evidence).  The claim says: with two cached
fragments P (`p.html`) and Q (`q.html`) both defining symbolic name `X`,
Q's `define` is registered only under a synthesized placeholder name,
never under `X`.  On the concrete input `fsC2` the compiled unit for
`index.html` still contains Q's fragment with its `define` tag named
exactly `"X"` (and so does P's): the symbolic reference list is never
populated (see `claim_C1`), hence the Redefinition Resolver rewrites
nothing, and under the engine's last-definition-wins `Parse` semantics
executing `X` yields Q's body, not P's. -/
theorem claim_C2 :
    loadTemplatesGo (fun _ => true) fsC2 "tpl" [".html"] ⟨[], []⟩ =
      (.returned
        [("index.html",
            [⟨"index.html",
                [.templateTag "p.html" "", .templateTag "q.html" "", .templateTag "X" ""]⟩,
             ⟨"p.html", [.defineTag "X" "", .text "P"]⟩,
             ⟨"q.html", [.defineTag "X" "", .text "Q"]⟩]),
         ("p.html", [⟨"p.html", [.defineTag "X" "", .text "P"]⟩]),
         ("q.html", [⟨"q.html", [.defineTag "X" "", .text "Q"]⟩])],
        ⟨[], []⟩) := by
  decide

/-- Claim C3 (code_bug evidence).  The claim says: a failure to load a
recursively included fragment file is propagated as a fatal,
pass-aborting error.  On the concrete input `fsC3`, the entry file
references `missing.html`, which does not exist; the recursive
`add(filepath.Join(basePath, "missing.html"))` fails with the IO error,
but its return value is discarded (line 156 of src/renders.go), so the
pass completes successfully and the full load returns a mapping — no
error, no abort. -/
theorem claim_C3 :
    loadTemplatesGo (fun _ => true) fsC3 "tpl" [".html"] ⟨[], []⟩ =
      (.returned [("index.html", [⟨"index.html", [.templateTag "missing.html" ""]⟩])],
        ⟨[], []⟩) := by
  decide

/-- Claim C4, counterexample.  The claim says a failing file's error is
surfaced to the caller as the returned error value.  On `fsC4` (one
matching but unreadable file) the code instead executes `panic(err)`
(line 61 of src/renders.go): the load ends in a panic carrying the IO
error, and no `(mapping, error)` pair is ever returned to the caller. -/
theorem claim_C4_cex :
    loadTemplatesGo (fun _ => true) fsC4 "tpl" [".html"] ⟨[], []⟩ =
      (.panicked (.addFail .ioError), ⟨[], []⟩) := by
  decide

/-- Claim C5 (code_bug evidence).  First conjunct: a zero-byte file fails
`file_content` with the dedicated empty-template error, distinct from the
IO error of an unreadable file (second conjunct, for the missing path
`"tpl/none.tmpl"`).  Third conjunct: on `fsC5` the zero-byte fragment
`empty.tmpl` is reached through a `template` tag; the claim says this
failure aborts the containing compile pass, but the code discards the
recursive `add`'s error, so the pass succeeds (the empty fragment is
merely not cached). -/
theorem claim_C5 :
    file_content fsC5 "tpl/empty.tmpl" = .error .emptyTemplateError ∧
    file_content fsC5 "tpl/none.tmpl" = .error .ioError ∧
    loadTemplatesGo (fun _ => true) fsC5 "tpl" [".html"] ⟨[], []⟩ =
      (.returned [("index.html", [⟨"index.html", [.templateTag "empty.tmpl" ""]⟩])],
        ⟨[], []⟩) := by
  refine ⟨rfl, rfl, by decide⟩

/-- Claim C6, counterexample.  The claim says a syntactically invalid
fragment causes the compositor to fail with a `CompileError` surfaced to
the caller of the compile entry point.  With the oracle `pkC6` rejecting
the only fragment of `fsC6`, the code instead panics inside
`template.Must` (line 103 of src/renders.go): the result is a panic, not
a returned error value — there is in fact no `CompileError` type anywhere
in the code. -/
theorem claim_C6_cex :
    loadTemplatesGo pkC6 fsC6 "tpl" [".html"] ⟨[], []⟩ =
      (.panicked .mustFail, ⟨[⟨"index.html", [.text "oops"]⟩], []⟩) := by
  decide

/-- Claim C4, amended.  Once some walked file's compile pass fails
(`stepFile` ends in a panic), the entire walk aborts at that point: the
remaining files are not processed, the accumulated partial mapping is
discarded, and the failure is surfaced as a panic carrying that file's
error — not as the returned error value. -/
theorem claim_C4 (pk : Source → Bool) (fs : FS) (bp : String) (exts : List String)
    (p : String) (c : Option Source) (rest : List (String × Option Source))
    (st : St) (m : TplMap) (r : PanicReason) (st' : St)
    (h : stepFile pk fs bp exts p st m = .halted r st') :
    walkGo pk fs bp exts ((p, c) :: rest) st m = (.panicked r, st') := by
  rw [walkGo, h]

/-- Witness for `claim_C4` on the concrete unreadable file of `fsC4`. -/
theorem claim_C4_witness :
    stepFile (fun _ => true) fsC4 "tpl" [".html"] "tpl/broken.html" ⟨[], []⟩ [] =
      .halted (.addFail .ioError) ⟨[], []⟩ ∧
    walkGo (fun _ => true) fsC4 "tpl" [".html"] [("tpl/broken.html", none)] ⟨[], []⟩ [] =
      (.panicked (.addFail .ioError), ⟨[], []⟩) :=
  ⟨by decide,
   claim_C4 (fun _ => true) fsC4 "tpl" [".html"] "tpl/broken.html" none []
     ⟨[], []⟩ [] (.addFail .ioError) ⟨[], []⟩ (by decide)⟩

/-- Claim C6, amended.  When a walked file matches the extension filter,
its `add` pass succeeds, and some fragment of the resolved cache fails to
parse, the whole load aborts with the `template.Must` panic carrying the
underlying syntax error; the failure is fatal to the whole load but is
not returned to the caller as an error value (there is no `CompileError`
in the code). -/
theorem claim_C6 (pk : Source → Bool) (fs : FS) (bp : String) (exts : List String)
    (p : String) (c : Option Source) (rest : List (String × Option Source))
    (st : St) (m : TplMap) (st2 : St)
    (hmatch : inExtensions exts (goExt (goRel bp p)) = true)
    (hadd : addT fs bp p st = (none, st2))
    (hbad : ((resolvePass st2.regularTemplateDefs st2.cache).all fun nt => pk nt.Src) = false) :
    walkGo pk fs bp exts ((p, c) :: rest) st m =
      (.panicked .mustFail,
        ⟨resolvePass st2.regularTemplateDefs st2.cache, st2.regularTemplateDefs⟩) := by
  have hstep : stepFile pk fs bp exts p st m =
      .halted .mustFail
        ⟨resolvePass st2.regularTemplateDefs st2.cache, st2.regularTemplateDefs⟩ := by
    simp [stepFile, hmatch, hadd, hbad]
  rw [walkGo, hstep]

/-- Witness for `claim_C6` on the concrete rejected fragment of `fsC6`. -/
theorem claim_C6_witness :
    inExtensions [".html"] (goExt (goRel "tpl" "tpl/index.html")) = true ∧
    walkGo pkC6 fsC6 "tpl" [".html"] [("tpl/index.html", some [Item.text "oops"])]
        ⟨[], []⟩ [] =
      (.panicked .mustFail, ⟨[⟨"index.html", [.text "oops"]⟩], []⟩) :=
  ⟨by decide,
   claim_C6 pkC6 fsC6 "tpl" [".html"] "tpl/index.html" (some [Item.text "oops"]) []
     ⟨[], []⟩ [] ⟨[⟨"index.html", [.text "oops"]⟩], []⟩ (by decide) (by decide) (by decide)⟩

/-- Claim C10 (confirmed).  After a matching top-level file's compile pass
completes successfully (`stepFile` continues the walk), the unit has been
inserted into the output mapping under the file's canonical name and the
cache handed to the next file is empty (`cache = cache[0:0]`, line 110 of
src/renders.go) — so no fragment cached for one top-level file is visible
in a later file's pass. -/
theorem claim_C10 (pk : Source → Bool) (fs : FS) (bp : String) (exts : List String)
    (p : String) (st : St) (m : TplMap) (st' : St) (m' : TplMap)
    (hmatch : inExtensions exts (goExt (goRel bp p)) = true)
    (hstep : stepFile pk fs bp exts p st m = .next st' m') :
    st'.cache = [] ∧ ∃ u, m' = upsert m (generateTemplateName bp p) u := by
  rcases haddT : addT fs bp p st with ⟨e, st2⟩
  cases e with
  | some e0 =>
    exfalso
    simp [stepFile, hmatch, haddT] at hstep
  | none =>
    by_cases hall : ((resolvePass st2.regularTemplateDefs st2.cache).all fun nt => pk nt.Src) = true
    · simp only [stepFile, hmatch, haddT] at hstep
      rw [if_neg (by simp)] at hstep
      simp only [hall, if_true] at hstep
      rcases hstep  -- hstep is StepRes.next equality
      exact ⟨rfl, ⟨resolvePass st2.regularTemplateDefs st2.cache, rfl⟩⟩
    · exfalso
      simp [stepFile, hmatch, haddT, hall] at hstep

/-- Witness for `claim_C10` on `fsC1`. -/
theorem claim_C10_witness :
    inExtensions [".html"] (goExt (goRel "tpl" "tpl/index.html")) = true ∧
    (⟨[], []⟩ : St).cache = [] :=
  ⟨by decide,
   (claim_C10 (fun _ => true) fsC1 "tpl" [".html"] "tpl/index.html" ⟨[], []⟩ []
     ⟨[], []⟩
     [("index.html", [⟨"index.html", [.text "A", .templateTag "title" ""]⟩])]
     (by decide) (by decide)).1⟩

/-- Claim C8 (confirmed).  First conjunct: an `add` for a name already
present in the cache is a no-op returning nil that leaves the whole state
unchanged (first writer wins); within one pass the file behind a cached
name is loadable, which the hypothesis records.  Second conjunct:
name-uniqueness of the cache is preserved by every `add` step. -/
theorem claim_C8 (fs : FS) (bp p : String) (st : St) :
    ((∃ s, file_content fs p = .ok s) → generateTemplateName bp p ∈ namesOf st.cache →
      addT fs bp p st = (none, st)) ∧
    ((namesOf st.cache).Nodup → (namesOf (addT fs bp p st).2.cache).Nodup) := by
  constructor
  · rintro ⟨s, hs⟩ hmem
    have hany := any_of_mem_namesOf _ _ hmem
    rcases addGo_succ_inv fs bp fs.length p st with
        ⟨e0, hfc, heq⟩ | ⟨src, _, _, heq⟩ | ⟨src, st2, _, hinc, _, heq⟩ |
        ⟨src, _, hinc, _, heq⟩
    · rw [hs] at hfc; cases hfc
    · rw [addT, addFuel, heq]
    · rw [hany] at hinc; cases hinc
    · rw [hany] at hinc; cases hinc
  · intro hn
    exact addGo_nodup fs bp (addFuel fs) p st _ _ (addGo_addT fs bp p st) hn

/-- Witness for `claim_C8`: the entry name is already cached (with a
different source), and the `add` leaves cache and state untouched. -/
theorem claim_C8_witness :
    addT fsC1 "tpl" "tpl/index.html" ⟨[⟨"index.html", [.text "B"]⟩], []⟩ =
      (none, ⟨[⟨"index.html", [.text "B"]⟩], []⟩) ∧
    (namesOf (addT fsC1 "tpl" "tpl/index.html"
        ⟨[⟨"index.html", [.text "B"]⟩], []⟩).2.cache).Nodup :=
  ⟨(claim_C8 fsC1 "tpl" "tpl/index.html" ⟨[⟨"index.html", [.text "B"]⟩], []⟩).1
      ⟨_, rfl⟩ (by decide),
   (claim_C8 fsC1 "tpl" "tpl/index.html" ⟨[⟨"index.html", [.text "B"]⟩], []⟩).2
      (by decide)⟩

/-! ### State evolution of the Directory Walker -/

theorem addT_defs (fs : FS) (bp p : String) (st : St) :
    (addT fs bp p st).2.regularTemplateDefs = st.regularTemplateDefs :=
  addGo_defs fs bp (addFuel fs) p st _ _ (addGo_addT fs bp p st)

/-- A walk step that continues either skipped the file (state unchanged)
or completed a pass (cache cleared); the symbolic reference list survives
unchanged in both cases. -/
theorem stepFile_next (pk : Source → Bool) (fs : FS) (bp : String) (exts : List String)
    (p : String) (st : St) (m : TplMap) (st2 : St) (m2 : TplMap)
    (h : stepFile pk fs bp exts p st m = .next st2 m2) :
    st2.regularTemplateDefs = st.regularTemplateDefs ∧
      (st2.cache = st.cache ∨ st2.cache = []) := by
  by_cases hmatch : inExtensions exts (goExt (goRel bp p)) = false
  · simp only [stepFile, hmatch, if_pos] at h
    rcases h
    exact ⟨rfl, Or.inl rfl⟩
  · have hmatch' : inExtensions exts (goExt (goRel bp p)) = true := by
      cases hx : inExtensions exts (goExt (goRel bp p))
      · exact absurd hx hmatch
      · rfl
    rcases haddT : addT fs bp p st with ⟨e, stA⟩
    have hdefs : stA.regularTemplateDefs = st.regularTemplateDefs := by
      have := addT_defs fs bp p st
      rw [haddT] at this
      exact this
    cases e with
    | some e0 =>
      exfalso
      simp [stepFile, hmatch', haddT] at h
    | none =>
      by_cases hall : ((resolvePass stA.regularTemplateDefs stA.cache).all
          fun nt => pk nt.Src) = true
      · simp only [stepFile, hmatch', haddT] at h
        rw [if_neg (by simp)] at h
        simp only [hall, if_true] at h
        rcases h
        exact ⟨hdefs, Or.inr rfl⟩
      · exfalso
        simp [stepFile, hmatch', haddT, hall] at h

theorem walkGo_state (pk : Source → Bool) (fs : FS) (bp : String) (exts : List String) :
    ∀ (files : List (String × Option Source)) (st : St) (m m' : TplMap) (stF : St),
      walkGo pk fs bp exts files st m = (.returned m', stF) →
      stF.regularTemplateDefs = st.regularTemplateDefs ∧
        (stF.cache = st.cache ∨ stF.cache = []) := by
  intro files
  induction files with
  | nil =>
    intro st m m' stF h
    rw [walkGo] at h
    rcases h
    exact ⟨rfl, Or.inl rfl⟩
  | cons pc rest ih =>
    obtain ⟨p, c⟩ := pc
    intro st m m' stF h
    rw [walkGo] at h
    cases hstep : stepFile pk fs bp exts p st m with
    | halted r stH => rw [hstep] at h; cases h
    | next stN mN =>
      rw [hstep] at h
      obtain ⟨hd1, hc1⟩ := stepFile_next pk fs bp exts p st m stN mN hstep
      obtain ⟨hd2, hc2⟩ := ih stN mN m' stF h
      refine ⟨by rw [hd2, hd1], ?_⟩
      rcases hc2 with hc2 | hc2
      · rcases hc1 with hc1 | hc1
        · exact Or.inl (by rw [hc2, hc1])
        · exact Or.inr (by rw [hc2, hc1])
      · exact Or.inr hc2

/-- Claim C9 (confirmed).  A successful directory walk started with an
empty cache hands back exactly the state it started from: the symbolic
reference list is never grown (its only producer is dead code, see
`claim_C1`) and the cache ends empty; re-running the walker on the
unchanged tree therefore yields the identical output mapping and final
state. -/
theorem claim_C9 (pk : Source → Bool) (fs : FS) (bp : String) (exts : List String)
    (st0 : St) (m : TplMap) (st1 : St)
    (h0 : st0.cache = [])
    (h1 : loadTemplatesGo pk fs bp exts st0 = (.returned m, st1)) :
    loadTemplatesGo pk fs bp exts st1 = (.returned m, st1) := by
  have hws := walkGo_state pk fs bp exts fs st0 [] m st1 h1
  obtain ⟨hd, hc⟩ := hws
  have hcache : st1.cache = st0.cache := by
    rcases hc with hc | hc
    · exact hc
    · rw [hc, h0]
  have hsame : st1 = st0 := by
    cases st0
    cases st1
    simp only [St.mk.injEq]
    exact ⟨by simpa using hcache, by simpa using hd⟩
  rw [hsame] at h1 ⊢
  exact h1

/-- Witness for `claim_C9`: two runs of the walker over `fsC1` return the
same mapping and the same final state. -/
theorem claim_C9_witness :
    loadTemplatesGo (fun _ => true) fsC1 "tpl" [".html"] ⟨[], []⟩ =
      (.returned [("index.html",
          [⟨"index.html", [.text "A", .templateTag "title" ""]⟩])], ⟨[], []⟩) ∧
    loadTemplatesGo (fun _ => true) fsC1 "tpl" [".html"] ⟨[], []⟩ =
      (.returned [("index.html",
          [⟨"index.html", [.text "A", .templateTag "title" ""]⟩])], ⟨[], []⟩) :=
  ⟨by decide,
   claim_C9 (fun _ => true) fsC1 "tpl" [".html"] ⟨[], []⟩
     [("index.html", [⟨"index.html", [.text "A", .templateTag "title" ""]⟩])]
     ⟨[], []⟩ rfl (by decide)⟩

/-! ### Reachability completeness -/

/-- In a cache that is tag-closed and faithful to the file system, every
file reachable from a cached entry is cached (by canonical name). -/
theorem reach_mem (fs : FS) (bp : String) (c : List NamedTemplate)
    (hclosed : ∀ nt ∈ c, childOk fs bp c nt)
    (hfaith : cacheFaithful fs bp c) :
    ∀ (p0 q : String), Reach fs bp p0 q →
      generateTemplateName bp p0 ∈ namesOf c →
      goJoin bp (generateTemplateName bp p0) = p0 →
      generateTemplateName bp q ∈ namesOf c ∧
        goJoin bp (generateTemplateName bp q) = q := by
  intro p0 q hr
  induction hr with
  | refl h =>
    intro hm hsh
    exact ⟨hm, hsh⟩
  | step q' tg s' hq hs htg hl ih =>
    intro hm hsh
    obtain ⟨hqmem, hqsh⟩ := ih hm hsh
    rcases List.mem_map.mp hqmem with ⟨nt, hnt, hname⟩
    have hfc := hfaith nt hnt
    rw [hname, hqsh, hs] at hfc
    injection hfc with hss
    subst hss
    exact ⟨hclosed nt hnt tg htg hl, by rw [gen_goJoin]⟩

/-- Claim C7 (confirmed).  For a loadable entry file and an empty starting
cache, the recursive Includer terminates within a recursion budget
bounded by the file-system size (so cyclic `template` references cannot
overflow), and when it returns, the cache names are pairwise distinct and
every file transitively reachable from the entry — including through
cycles — is present, i.e. appears in the cache exactly once. -/
theorem claim_C7 (fs : FS) (bp e : String) (st0 : St) (s : Source)
    (hcache : st0.cache = [])
    (hentry : file_content fs (goJoin bp e) = .ok s) :
    ∃ st', addGo fs bp (addFuel fs) (goJoin bp e) st0 = .res none st' ∧
      (namesOf st'.cache).Nodup ∧
      ∀ q, Reach fs bp (goJoin bp e) q →
        generateTemplateName bp q ∈ namesOf st'.cache := by
  cases hres : addGo fs bp (addFuel fs) (goJoin bp e) st0 with
  | out => exact absurd hres (addGo_no_out fs bp _ st0)
  | res e? st' =>
    cases e? with
    | some err =>
      obtain ⟨hfc, _⟩ := addGo_err fs bp _ _ _ _ _ hres
      rw [hentry] at hfc
      cases hfc
    | none =>
      refine ⟨st', rfl, ?_, ?_⟩
      · refine addGo_nodup fs bp _ _ _ _ _ hres ?_
        rw [hcache]
        simp [namesOf]
      · have hclosed : ∀ nt ∈ st'.cache, childOk fs bp st'.cache nt := by
          intro nt hnt
          refine addGo_child fs bp _ _ _ _ _ hres nt hnt ?_
          rw [hcache]
          simp
        have hfaith : cacheFaithful fs bp st'.cache := by
          refine addGo_faith fs bp _ e st0 _ _ hres ?_
          intro nt hnt
          rw [hcache] at hnt
          cases hnt
        have hmem0 : generateTemplateName bp (goJoin bp e) ∈ namesOf st'.cache :=
          addGo_memOk fs bp _ _ _ _ hres
        intro q hreach
        exact (reach_mem fs bp st'.cache hclosed hfaith (goJoin bp e) q hreach
          hmem0 (by rw [gen_goJoin])).1

/-- Witness for `claim_C7` on the two-file cycle `fsC7`, plus the concrete
evaluation showing the final cache holds `a.html` and `b.html` exactly
once each. -/
theorem claim_C7_witness :
    file_content fsC7 (goJoin "t" "a.html") = .ok [Item.templateTag "b.html" ""] ∧
    addT fsC7 "t" (goJoin "t" "a.html") ⟨[], []⟩ =
      (none, ⟨[⟨"a.html", [.templateTag "b.html" ""]⟩,
               ⟨"b.html", [.templateTag "a.html" ""]⟩], []⟩) ∧
    (∃ st', addGo fsC7 "t" (addFuel fsC7) (goJoin "t" "a.html") ⟨[], []⟩ = .res none st' ∧
      (namesOf st'.cache).Nodup ∧
      ∀ q, Reach fsC7 "t" (goJoin "t" "a.html") q →
        generateTemplateName "t" q ∈ namesOf st'.cache) :=
  ⟨rfl, by decide,
   claim_C7 fsC7 "t" "a.html" ⟨[], []⟩ [Item.templateTag "b.html" ""] rfl rfl⟩

end Renders
